import Mathlib

/-!
Shallow embedding of the `BinaryVec<T>` sorted-container crate (`src/lib.rs`)
for `T = Int` (Rust's `T: Ord`; for the integer instantiation, comparator
equality coincides with equality).  The observable state of a `BinaryVec` is
its backing vector, modelled as a `List Int`.  Each public method is embedded
as a pure function; methods that mutate `self` return the new state
explicitly.
-/

namespace BinaryVec

/-- Loop body of Rust std's slice `binary_search` (called by `BinaryVec::insert`,
`get_index`, `remove_item` and `contains`):

    while left < right {
        let mid = left + size / 2;          // size = right - left
        if v[mid] < x { left = mid + 1 }
        else if x < v[mid] { right = mid }
        else { return Ok(mid) }
    }
    Err(left)

`Ok i` is modelled as `Except.ok i` and `Err i` as `Except.error i`.  The loop
terminates because `right - left` strictly decreases; we express it by
structural recursion on an explicit bound `fuel`, instantiated with
`v.length` (which is an upper bound on `right - left`) by `binary_search`. -/
def binarySearchLoop (v : List Int) (x : Int) : Nat → Nat → Nat → Except Nat Nat
  | 0, left, _ => .error left
  | fuel + 1, left, right =>
    if left < right then
      let mid := left + (right - left) / 2
      if v.getD mid 0 < x then binarySearchLoop v x fuel (mid + 1) right
      else if x < v.getD mid 0 then binarySearchLoop v x fuel left mid
      else .ok mid
    else .error left

/-- Rust std slice `binary_search` over the whole backing vector. -/
def binary_search (v : List Int) (x : Int) : Except Nat Nat :=
  binarySearchLoop v x v.length 0 v.length

/-- `BinaryVec::insert`: binary-search for `value`; on `Ok(index)` the value is
NOT inserted and the index of the existing equal element is returned; on
`Err(index)` the value is inserted at `index` (`Vec::insert`, i.e.
`List.insertIdx`) and `index` is returned.  Returns the new state and the
returned index. -/
def insert (s : List Int) (value : Int) : List Int × Nat :=
  match binary_search s value with
  | .ok index => (s, index)
  | .error index => (s.insertIdx index value, index)

/-- `BinaryVec::get`: `self.vec.get(index)`, `None` when out of bounds. -/
def get (s : List Int) (index : Nat) : Option Int :=
  s.get? index

/-- `BinaryVec::get_index`: `self.vec.binary_search(value).ok()`. -/
def get_index (s : List Int) (value : Int) : Option Nat :=
  match binary_search s value with
  | .ok index => some index
  | .error _ => none

/-- `BinaryVec::remove`: if `index < len`, `Vec::remove(index)` extracts the
element at `index` and shifts the tail left (`List.eraseIdx`); otherwise
`None` and the state is unchanged.  Returns the removed value and the new
state. -/
def remove (s : List Int) (index : Nat) : Option Int × List Int :=
  if index < s.length then (some (s.getD index 0), s.eraseIdx index) else (none, s)

/-- `BinaryVec::remove_item`: binary-search for `value`; on `Ok(index)` remove
and return the element at `index`, on `Err` return `None` with no mutation. -/
def remove_item (s : List Int) (value : Int) : Option Int × List Int :=
  match binary_search s value with
  | .ok index => (some (s.getD index 0), s.eraseIdx index)
  | .error _ => (none, s)

/-- `BinaryVec::contains`: `self.vec.binary_search(value).is_ok()`. -/
def contains (s : List Int) (value : Int) : Bool :=
  match binary_search s value with
  | .ok _ => true
  | .error _ => false

/-- `BinaryVec::len`: `self.vec.len()`. -/
def len (s : List Int) : Nat :=
  s.length

/-- `BinaryVec::is_empty`: `self.vec.is_empty()`. -/
def is_empty (s : List Int) : Bool :=
  s.isEmpty

/-- `BinaryVec::clear`: `self.vec.clear()`. -/
def clear (_ : List Int) : List Int :=
  []

/-- `BinaryVec::resize`: `Vec::resize(new_len, value)` — truncate when
`new_len < len`, append `new_len - len` copies of `value` when
`new_len > len`, no change when equal. -/
def resize (s : List Int) (new_len : Nat) (value : Int) : List Int :=
  if new_len ≤ s.length then s.take new_len
  else s ++ List.replicate (new_len - s.length) value

/-- A public mutating operation of the container, for stating the invariant
over arbitrary operation sequences. -/
inductive Op where
  | ins (value : Int)
  | rem (index : Nat)
  | remVal (value : Int)

/-- Apply one operation to the state, discarding the returned value. -/
def applyOp (s : List Int) : Op → List Int
  | .ins value => (insert s value).1
  | .rem index => (remove s index).2
  | .remVal value => (remove_item s value).2

/-- Apply a sequence of operations from left to right. -/
def applyOps (s : List Int) (ops : List Op) : List Int :=
  ops.foldl applyOp s

/-! Helper lemmas: sortedness via `getD`, and correctness of the embedded
binary-search loop. -/

theorem sorted_iff_getD {v : List Int} :
    List.Sorted (· ≤ ·) v ↔
      ∀ a b : Nat, a < b → b < v.length → v.getD a 0 ≤ v.getD b 0 := by
  rw [List.Sorted, List.pairwise_iff_getElem]
  constructor
  · intro h a b hab hb
    have ha : a < v.length := hab.trans hb
    rw [List.getD_eq_getElem v 0 ha, List.getD_eq_getElem v 0 hb]
    exact h a b ha hb hab
  · intro h a b ha hb hab
    have hg := h a b hab hb
    rwa [List.getD_eq_getElem v 0 ha, List.getD_eq_getElem v 0 hb] at hg

theorem sorted_getD_le {v : List Int} (hs : List.Sorted (· ≤ ·) v) {a b : Nat}
    (hab : a ≤ b) (hb : b < v.length) : v.getD a 0 ≤ v.getD b 0 := by
  rcases Nat.lt_or_ge a b with h | h
  · exact sorted_iff_getD.mp hs a b h hb
  · have : a = b := by omega
    subst this
    exact le_refl _

theorem binarySearchLoop_ok {v : List Int} {x : Int} {fuel l r i : Nat}
    (hr : r ≤ v.length) (h : binarySearchLoop v x fuel l r = .ok i) :
    i < v.length ∧ v.getD i 0 = x := by
  induction fuel generalizing l r with
  | zero => simp [binarySearchLoop] at h
  | succ fuel ih =>
    rw [binarySearchLoop] at h
    by_cases hlr : l < r
    · rw [if_pos hlr] at h
      have hmid : l + (r - l) / 2 < r := by
        have := Nat.div_lt_self (show 0 < r - l by omega) (show 1 < 2 by omega)
        omega
      by_cases h1 : v.getD (l + (r - l) / 2) 0 < x
      · rw [if_pos h1] at h
        exact ih hr h
      · rw [if_neg h1] at h
        by_cases h2 : x < v.getD (l + (r - l) / 2) 0
        · rw [if_pos h2] at h
          exact ih (le_trans (le_of_lt hmid) hr) h
        · rw [if_neg h2] at h
          cases h
          exact ⟨by omega, le_antisymm (not_lt.mp h2) (not_lt.mp h1)⟩
    · rw [if_neg hlr] at h
      cases h

theorem binarySearchLoop_err_bounds {v : List Int} {x : Int} {fuel l r i : Nat}
    (hlr : l ≤ r) (h : binarySearchLoop v x fuel l r = .error i) :
    l ≤ i ∧ i ≤ r := by
  induction fuel generalizing l r with
  | zero =>
    rw [binarySearchLoop] at h
    cases h
    exact ⟨le_refl _, hlr⟩
  | succ fuel ih =>
    rw [binarySearchLoop] at h
    by_cases hlt : l < r
    · rw [if_pos hlt] at h
      have hmid : l + (r - l) / 2 < r := by
        have := Nat.div_lt_self (show 0 < r - l by omega) (show 1 < 2 by omega)
        omega
      by_cases h1 : v.getD (l + (r - l) / 2) 0 < x
      · rw [if_pos h1] at h
        have := ih (show l + (r - l) / 2 + 1 ≤ r by omega) h
        omega
      · rw [if_neg h1] at h
        by_cases h2 : x < v.getD (l + (r - l) / 2) 0
        · rw [if_pos h2] at h
          have := ih (show l ≤ l + (r - l) / 2 by omega) h
          omega
        · rw [if_neg h2] at h
          cases h
    · rw [if_neg hlt] at h
      cases h
      exact ⟨le_refl _, hlr⟩

theorem binarySearchLoop_err_sorted {v : List Int} {x : Int} {fuel l r i : Nat}
    (hs : List.Sorted (· ≤ ·) v) (hfuel : r - l ≤ fuel) (hlr : l ≤ r)
    (hr : r ≤ v.length)
    (hleft : ∀ k, k < l → v.getD k 0 < x)
    (hright : ∀ k, r ≤ k → k < v.length → x < v.getD k 0)
    (h : binarySearchLoop v x fuel l r = .error i) :
    (∀ k, k < i → v.getD k 0 < x) ∧ (∀ k, i ≤ k → k < v.length → x < v.getD k 0) := by
  induction fuel generalizing l r with
  | zero =>
    rw [binarySearchLoop] at h
    have hlr2 : l = r := by omega
    subst hlr2
    cases h
    exact ⟨hleft, hright⟩
  | succ fuel ih =>
    rw [binarySearchLoop] at h
    by_cases hlt : l < r
    · rw [if_pos hlt] at h
      have hmid : l + (r - l) / 2 < r := by
        have := Nat.div_lt_self (show 0 < r - l by omega) (show 1 < 2 by omega)
        omega
      by_cases h1 : v.getD (l + (r - l) / 2) 0 < x
      · rw [if_pos h1] at h
        refine ih (by omega) (by omega) hr ?_ hright h
        intro k hk
        rcases Nat.lt_or_ge k l with hkl | hkl
        · exact hleft k hkl
        · exact lt_of_le_of_lt (sorted_getD_le hs (by omega) (by omega)) h1
      · rw [if_neg h1] at h
        by_cases h2 : x < v.getD (l + (r - l) / 2) 0
        · rw [if_pos h2] at h
          refine ih (by omega) (by omega) (by omega) hleft ?_ h
          intro k hk hkv
          rcases Nat.lt_or_ge k r with hkr | hkr
          · exact lt_of_lt_of_le h2 (sorted_getD_le hs hk hkv)
          · exact hright k hkr hkv
        · rw [if_neg h2] at h
          cases h
    · rw [if_neg hlt] at h
      have hlr2 : l = r := by omega
      subst hlr2
      cases h
      exact ⟨hleft, hright⟩

theorem binary_search_found {v : List Int} {x : Int} {i : Nat}
    (h : binary_search v x = .ok i) : i < v.length ∧ v.getD i 0 = x :=
  binarySearchLoop_ok (le_refl _) h

theorem binary_search_err_le {v : List Int} {x : Int} {i : Nat}
    (h : binary_search v x = .error i) : i ≤ v.length :=
  (binarySearchLoop_err_bounds (Nat.zero_le _) h).2

theorem binary_search_not_found {v : List Int} {x : Int} {i : Nat}
    (hs : List.Sorted (· ≤ ·) v) (h : binary_search v x = .error i) :
    (∀ k, k < i → v.getD k 0 < x) ∧ (∀ k, i ≤ k → k < v.length → x < v.getD k 0) :=
  binarySearchLoop_err_sorted hs (le_refl _) (Nat.zero_le _) (le_refl _)
    (fun k hk => absurd hk (Nat.not_lt_zero k))
    (fun _ hk hkv => absurd (lt_of_le_of_lt hk hkv) (lt_irrefl _)) h

theorem mem_of_binary_search_found {v : List Int} {x : Int} {i : Nat}
    (h : binary_search v x = .ok i) : x ∈ v := by
  obtain ⟨hi, hx⟩ := binary_search_found h
  rw [List.getD_eq_getElem v 0 hi] at hx
  exact hx ▸ List.getElem_mem hi

theorem not_mem_of_binary_search_err {v : List Int} {x : Int} {i : Nat}
    (hs : List.Sorted (· ≤ ·) v) (h : binary_search v x = .error i) : x ∉ v := by
  intro hmem
  obtain ⟨hlt, hgt⟩ := binary_search_not_found hs h
  obtain ⟨k, hk, hkx⟩ := List.mem_iff_getElem.mp hmem
  have hkD : v.getD k 0 = x := by rw [List.getD_eq_getElem v 0 hk]; exact hkx
  rcases Nat.lt_or_ge k i with hki | hki
  · exact absurd (hkD ▸ hlt k hki) (lt_irrefl x)
  · exact absurd (hkD ▸ hgt k hki hk) (lt_irrefl x)

theorem getD_insertIdx {v : List Int} {x : Int} {i : Nat} (hi : i ≤ v.length)
    {k : Nat} (hk : k < v.length + 1) :
    (v.insertIdx i x).getD k 0 =
      if k < i then v.getD k 0 else if k = i then x else v.getD (k - 1) 0 := by
  have hlen : (v.insertIdx i x).length = v.length + 1 := List.length_insertIdx i v hi
  have hkt : k < (v.insertIdx i x).length := by omega
  by_cases h1 : k < i
  · rw [if_pos h1]
    have hkv : k < v.length := by omega
    rw [List.getD_eq_getElem _ 0 hkt, List.getD_eq_getElem v 0 hkv]
    exact List.getElem_insertIdx_of_lt v x i k h1 hkv
  · rw [if_neg h1]
    by_cases h2 : k = i
    · subst h2
      rw [if_pos rfl, List.getD_eq_getElem _ 0 hkt]
      exact List.getElem_insertIdx_self v x k hi
    · rw [if_neg h2]
      have hik : i < k := by omega
      have hkv : k - 1 < v.length := by omega
      have h3 : i + (k - i - 1) < v.length := by omega
      rw [List.getD_eq_getElem _ 0 hkt, List.getD_eq_getElem v 0 hkv]
      have hstep := List.getElem_insertIdx_add_succ v x i (k - i - 1) h3
      have hidx : i + (k - i - 1) + 1 = k := by omega
      have hidy : i + (k - i - 1) = k - 1 := by omega
      simp only [hidx] at hstep
      simp only [hidy] at hstep
      exact hstep

theorem sorted_insertIdx_of_separated {v : List Int} {x : Int} {i : Nat}
    (hs : List.Sorted (· ≤ ·) v) (hi : i ≤ v.length)
    (hlt : ∀ k, k < i → v.getD k 0 < x)
    (hgt : ∀ k, i ≤ k → k < v.length → x < v.getD k 0) :
    List.Sorted (· ≤ ·) (v.insertIdx i x) := by
  have hv := sorted_iff_getD.mp hs
  rw [sorted_iff_getD]
  intro a b hab hb
  rw [List.length_insertIdx i v hi] at hb
  rw [getD_insertIdx hi (show a < v.length + 1 by omega), getD_insertIdx hi hb]
  rcases Nat.lt_trichotomy a i with ha1 | ha1 | ha1
  · rw [if_pos ha1]
    rcases Nat.lt_trichotomy b i with hb1 | hb1 | hb1
    · rw [if_pos hb1]
      exact hv a b hab (by omega)
    · rw [if_neg (by omega), if_pos hb1]
      exact le_of_lt (hlt a ha1)
    · rw [if_neg (by omega), if_neg (by omega)]
      refine le_of_lt (lt_trans (hlt a ha1) (hgt (b - 1) (by omega) (by omega)))
  · rw [if_neg (by omega), if_pos ha1]
    rcases Nat.lt_trichotomy b i with hb1 | hb1 | hb1
    · omega
    · omega
    · rw [if_neg (by omega), if_neg (by omega)]
      exact le_of_lt (hgt (b - 1) (by omega) (by omega))
  · rw [if_neg (by omega), if_neg (by omega)]
    rcases Nat.lt_trichotomy b i with hb1 | hb1 | hb1
    · omega
    · omega
    · rw [if_neg (by omega), if_neg (by omega)]
      rcases Nat.lt_or_ge (b - 1) v.length with hbv | hbv
      · exact sorted_getD_le hs (by omega) hbv
      · omega

theorem sorted_insert {s : List Int} {x : Int}
    (hs : List.Sorted (· ≤ ·) s) : List.Sorted (· ≤ ·) (insert s x).1 := by
  unfold insert
  rcases hbs : binary_search s x with i | i
  · obtain ⟨hlt, hgt⟩ := binary_search_not_found hs hbs
    have hi : i ≤ s.length := binary_search_err_le hbs
    simpa using sorted_insertIdx_of_separated hs hi hlt hgt
  · simpa using hs

theorem sorted_eraseIdx {s : List Int} {i : Nat}
    (hs : List.Sorted (· ≤ ·) s) : List.Sorted (· ≤ ·) (s.eraseIdx i) :=
  List.Pairwise.sublist (List.eraseIdx_sublist s i) hs

theorem sorted_remove {s : List Int} {i : Nat}
    (hs : List.Sorted (· ≤ ·) s) : List.Sorted (· ≤ ·) (remove s i).2 := by
  unfold remove
  by_cases h : i < s.length
  · rw [if_pos h]
    exact sorted_eraseIdx hs
  · rw [if_neg h]
    exact hs

theorem sorted_remove_item {s : List Int} {x : Int}
    (hs : List.Sorted (· ≤ ·) s) : List.Sorted (· ≤ ·) (remove_item s x).2 := by
  unfold remove_item
  rcases hbs : binary_search s x with i | i
  · simpa using hs
  · simpa using sorted_eraseIdx (i := i) hs


theorem sorted_applyOp {s : List Int} (hs : List.Sorted (· ≤ ·) s) (op : Op) :
    List.Sorted (· ≤ ·) (applyOp s op) := by
  cases op with
  | ins x => exact sorted_insert hs
  | rem i => exact sorted_remove hs
  | remVal x => exact sorted_remove_item hs

theorem sorted_applyOps {s : List Int} (hs : List.Sorted (· ≤ ·) s)
    (ops : List Op) : List.Sorted (· ≤ ·) (applyOps s ops) := by
  induction ops generalizing s with
  | nil => exact hs
  | cons op ops ih => exact ih (sorted_applyOp hs op)

/-! Claim theorems. -/

/-- C1 (amended): for every state `S` and value `v`, `insert v` increases the
length by exactly 1 when `S` holds no element equal to `v` (when an equal
element already exists the length is unchanged, see the counterexample and
C10), and in all cases the returned index `i` satisfies `get i = v`
immediately after the call. -/
theorem insert_len_get_C1 (s : List Int) (v : Int) :
    (v ∉ s → len (insert s v).1 = len s + 1) ∧
    get (insert s v).1 (insert s v).2 = some v := by
  unfold insert
  rcases hbs : binary_search s v with i | i
  · have hi : i ≤ s.length := binary_search_err_le hbs
    have hlen : (s.insertIdx i v).length = s.length + 1 := List.length_insertIdx i s hi
    refine ⟨fun _ => hlen, ?_⟩
    show (s.insertIdx i v).get? i = some v
    have hit : i < (s.insertIdx i v).length := by omega
    rw [List.get?_eq_getElem?, List.getElem?_eq_getElem hit]
    exact congrArg some (List.getElem_insertIdx_self s v i hi)
  · obtain ⟨hi, hvi⟩ := binary_search_found hbs
    refine ⟨fun hnm => absurd (mem_of_binary_search_found hbs) hnm, ?_⟩
    show s.get? i = some v
    rw [List.get?_eq_getElem?, List.getElem?_eq_getElem hi]
    exact congrArg some ((List.getD_eq_getElem s 0 hi).symm.trans hvi)

/-- C1 counterexample: inserting 5 into the (reachable, sorted) state `[5]`
does not change the length, so the length does not increase by exactly 1. -/
theorem insert_len_get_C1_cex :
    ¬ (len (insert [(5 : Int)] 5).1 = len [(5 : Int)] + 1 ∧
       get (insert [(5 : Int)] 5).1 (insert [(5 : Int)] 5).2 = some 5) := by
  decide

/-- C1 witness: inserting 3 into `[5]` grows the length from 1 to 2 and the
returned index reads back 3. -/
theorem insert_len_get_C1_witness :
    len (insert [(5 : Int)] 3).1 = len [(5 : Int)] + 1 ∧
    get (insert [(5 : Int)] 3).1 (insert [(5 : Int)] 3).2 = some 3 :=
  ⟨(insert_len_get_C1 [(5 : Int)] 3).1 (by decide),
   (insert_len_get_C1 [(5 : Int)] 3).2⟩

/-- C2: for every sequence of `insert`, `remove` and `remove_item` operations
starting from the empty container, the resulting state is sorted: the element
at every index `i` is `≤` the element at every index `j` whenever `i < j`.
Since `ops` ranges over all operation lists, this covers the state after each
operation of any longer sequence. -/
theorem sortedness_invariant_C2 (ops : List Op) (i j : Nat) (hij : i < j)
    (hj : j < (applyOps [] ops).length) :
    (applyOps [] ops).getD i 0 ≤ (applyOps [] ops).getD j 0 :=
  sorted_iff_getD.mp (sorted_applyOps List.sorted_nil ops) i j hij hj

/-- C2 witness: after inserting 5, 3, 7 the elements at indices 0 and 2 are
ordered. -/
theorem sortedness_invariant_C2_witness :
    (applyOps [] [Op.ins 5, Op.ins 3, Op.ins 7]).getD 0 0 ≤
      (applyOps [] [Op.ins 5, Op.ins 3, Op.ins 7]).getD 2 0 :=
  sortedness_invariant_C2 [Op.ins 5, Op.ins 3, Op.ins 7] 0 2 (by decide) (by decide)

/-- C3 (amended): for every state `S` and value `v` such that `S` holds no
element equal to `v`, calling `insert v` and then `remove` on the returned
index returns the original value `v` and restores the length to what it was
before the insert.  (When an equal element is already present the insert is a
no-op and the remove deletes that element, so the length is not restored —
see the counterexample.) -/
theorem roundtrip_C3 (s : List Int) (v : Int) (hv : v ∉ s) :
    (remove (insert s v).1 (insert s v).2).1 = some v ∧
    len (remove (insert s v).1 (insert s v).2).2 = len s := by
  unfold insert
  rcases hbs : binary_search s v with i | i
  · have hi : i ≤ s.length := binary_search_err_le hbs
    have hlen : (s.insertIdx i v).length = s.length + 1 := List.length_insertIdx i s hi
    have hit : i < (s.insertIdx i v).length := by omega
    unfold remove
    rw [if_pos hit]
    refine ⟨?_, ?_⟩
    · exact congrArg some ((List.getD_eq_getElem _ 0 hit).trans
        (List.getElem_insertIdx_self s v i hi))
    · show ((s.insertIdx i v).eraseIdx i).length = s.length
      rw [List.eraseIdx_insertIdx i s]
  · exact absurd (mem_of_binary_search_found hbs) hv

/-- C3 counterexample: from the (reachable, sorted) state `[5]`, inserting 5
is a no-op returning index 0, and removing index 0 then shrinks the container
below its pre-insert length. -/
theorem roundtrip_C3_cex :
    ¬ ((remove (insert [(5 : Int)] 5).1 (insert [(5 : Int)] 5).2).1 = some 5 ∧
       len (remove (insert [(5 : Int)] 5).1 (insert [(5 : Int)] 5).2).2 =
         len [(5 : Int)]) := by
  decide

/-- C3 witness: inserting 3 into `[5]` and removing it again returns 3 and
restores length 1. -/
theorem roundtrip_C3_witness :
    (remove (insert [(5 : Int)] 3).1 (insert [(5 : Int)] 3).2).1 = some 3 ∧
    len (remove (insert [(5 : Int)] 3).1 (insert [(5 : Int)] 3).2).2 =
      len [(5 : Int)] :=
  roundtrip_C3 [(5 : Int)] 3 (by decide)

/-- C4: `remove i` on a state with `i < len` returns the element at `i`,
closes the gap by shifting every later element one position left, and
decrements the length; on `i ≥ len` it returns `none` and leaves the state
unchanged. -/
theorem remove_spec_C4 (s : List Int) (i : Nat) :
    (i < len s →
      (remove s i).1 = some (s.getD i 0) ∧
      len (remove s i).2 = len s - 1 ∧
      (∀ k, k < i → (remove s i).2.getD k 0 = s.getD k 0) ∧
      (∀ k, i ≤ k → k < len s - 1 → (remove s i).2.getD k 0 = s.getD (k + 1) 0)) ∧
    (len s ≤ i → remove s i = (none, s)) := by
  constructor
  · intro hi
    have hi2 : i < s.length := hi
    unfold remove
    rw [if_pos hi2]
    have hlen : (s.eraseIdx i).length = s.length - 1 := List.length_eraseIdx_of_lt hi2
    refine ⟨rfl, hlen, ?_, ?_⟩
    · intro k hk
      have hke : k < (s.eraseIdx i).length := by omega
      have hks : k < s.length := by omega
      rw [List.getD_eq_getElem _ 0 hke, List.getD_eq_getElem s 0 hks]
      exact List.getElem_eraseIdx_of_lt s i k hke hk
    · intro k hik hk
      have hk2 : k < s.length - 1 := hk
      have hke : k < (s.eraseIdx i).length := by omega
      have hks : k + 1 < s.length := by omega
      rw [List.getD_eq_getElem _ 0 hke, List.getD_eq_getElem s 0 hks]
      exact List.getElem_eraseIdx_of_ge s i k hke hik
  · intro hi
    have hi2 : s.length ≤ i := hi
    unfold remove
    rw [if_neg (not_lt.mpr hi2)]

/-- C4 witness: spec scenario 2 — from `[3,5,7]`, `remove 1` returns 5 and
shrinks the length to 2, while `remove 10` is a no-op returning `none`. -/
theorem remove_spec_C4_witness :
    (remove [(3 : Int), 5, 7] 1).1 = some 5 ∧
    len (remove [(3 : Int), 5, 7] 1).2 = 2 ∧
    remove [(3 : Int), 5, 7] 10 = (none, [(3 : Int), 5, 7]) :=
  ⟨((remove_spec_C4 [(3 : Int), 5, 7] 1).1 (by decide)).1,
   ((remove_spec_C4 [(3 : Int), 5, 7] 1).1 (by decide)).2.1,
   (remove_spec_C4 [(3 : Int), 5, 7] 10).2 (by decide)⟩

/-- C5: on a sorted state, for every member `v`, `contains v` is true and
`get_index v` returns an index reading back `v`; for every non-member,
`contains v` is false and `get_index v` is `none`. -/
theorem search_correct_C5 (s : List Int) (v : Int)
    (hs : List.Sorted (· ≤ ·) s) :
    (v ∈ s → contains s v = true ∧
      ∃ i, get_index s v = some i ∧ get s i = some v) ∧
    (v ∉ s → contains s v = false ∧ get_index s v = none) := by
  rcases hbs : binary_search s v with i | i
  · have hnm := not_mem_of_binary_search_err hs hbs
    refine ⟨fun hm => absurd hm hnm, fun _ => ⟨?_, ?_⟩⟩
    · unfold contains
      rw [hbs]
    · unfold get_index
      rw [hbs]
  · obtain ⟨hi, hvi⟩ := binary_search_found hbs
    refine ⟨fun _ => ⟨?_, i, ?_, ?_⟩,
      fun hnm => absurd (mem_of_binary_search_found hbs) hnm⟩
    · unfold contains
      rw [hbs]
    · unfold get_index
      rw [hbs]
    · show s.get? i = some v
      rw [List.get?_eq_getElem?, List.getElem?_eq_getElem hi]
      exact congrArg some ((List.getD_eq_getElem s 0 hi).symm.trans hvi)

/-- C5 witness: spec scenario 4 — in `[3,5,7]`, the member 5 is found and the
non-member 10 is reported absent. -/
theorem search_correct_C5_witness :
    (contains [(3 : Int), 5, 7] 5 = true ∧
      ∃ i, get_index [(3 : Int), 5, 7] 5 = some i ∧
        get [(3 : Int), 5, 7] i = some 5) ∧
    (contains [(3 : Int), 5, 7] 10 = false ∧
      get_index [(3 : Int), 5, 7] 10 = none) :=
  ⟨(search_correct_C5 [(3 : Int), 5, 7] 5 (by decide)).1 (by decide),
   (search_correct_C5 [(3 : Int), 5, 7] 10 (by decide)).2 (by decide)⟩

/-- C6: on a sorted state, `remove_item v` removes and returns one element
equal to `v` (the one the binary search locates) when a member exists,
decreasing the length by 1; otherwise it returns `none` with no mutation. -/
theorem remove_value_C6 (s : List Int) (v : Int)
    (hs : List.Sorted (· ≤ ·) s) :
    (v ∈ s → (remove_item s v).1 = some v ∧
      len (remove_item s v).2 + 1 = len s ∧
      ∃ i, i < len s ∧ s.getD i 0 = v ∧ (remove_item s v).2 = s.eraseIdx i) ∧
    (v ∉ s → remove_item s v = (none, s)) := by
  rcases hbs : binary_search s v with i | i
  · have hnm := not_mem_of_binary_search_err hs hbs
    refine ⟨fun hm => absurd hm hnm, fun _ => ?_⟩
    unfold remove_item
    rw [hbs]
  · obtain ⟨hi, hvi⟩ := binary_search_found hbs
    refine ⟨fun _ => ?_, fun hnm => absurd (mem_of_binary_search_found hbs) hnm⟩
    unfold remove_item
    rw [hbs]
    refine ⟨congrArg some hvi, ?_, i, hi, hvi, rfl⟩
    show (s.eraseIdx i).length + 1 = s.length
    rw [List.length_eraseIdx_of_lt hi]
    omega

/-- C6 witness: spec scenario 3 — from `[3,5,7]`, `remove_item 5` returns 5
and shrinks the length to 2, while `remove_item 10` returns `none` and leaves
the state unchanged. -/
theorem remove_value_C6_witness :
    (remove_item [(3 : Int), 5, 7] 5).1 = some 5 ∧
    len (remove_item [(3 : Int), 5, 7] 5).2 + 1 = len [(3 : Int), 5, 7] ∧
    remove_item [(3 : Int), 5, 7] 10 = (none, [(3 : Int), 5, 7]) :=
  ⟨((remove_value_C6 [(3 : Int), 5, 7] 5 (by decide)).1 (by decide)).1,
   ((remove_value_C6 [(3 : Int), 5, 7] 5 (by decide)).1 (by decide)).2.1,
   (remove_value_C6 [(3 : Int), 5, 7] 10 (by decide)).2 (by decide)⟩

/-- C7: `get i` returns the element at `i` when `i < len` and `none` when `i`
is out of range; in the embedding `get` is a pure function of the state, so
it never mutates the container, and out-of-range access is an ordinary
`none`, not a fatal error. -/
theorem get_spec_C7 (s : List Int) (i : Nat) :
    (i < len s → get s i = some (s.getD i 0)) ∧ (len s ≤ i → get s i = none) := by
  constructor
  · intro hi
    have hi2 : i < s.length := hi
    show s.get? i = some (s.getD i 0)
    rw [List.get?_eq_getElem?, List.getElem?_eq_getElem hi2,
      List.getD_eq_getElem s 0 hi2]
  · intro hi
    have hi2 : s.length ≤ i := hi
    show s.get? i = none
    rw [List.get?_eq_getElem?]
    exact List.getElem?_eq_none hi2

/-- C7 witness: in `[3,5,7]`, `get 1` is `some 5` and `get 10` is `none`. -/
theorem get_spec_C7_witness :
    get [(3 : Int), 5, 7] 1 = some 5 ∧ get [(3 : Int), 5, 7] 10 = none :=
  ⟨(get_spec_C7 [(3 : Int), 5, 7] 1).1 (by decide),
   (get_spec_C7 [(3 : Int), 5, 7] 10).2 (by decide)⟩

/-- C8: on a sorted state, `resize k fill` with `k < len` truncates to the
first `k` elements of the original (elementwise unchanged, still sorted), and
with `k > len` appends `k - len` copies of `fill` at the end with no
re-sorting. -/
theorem resize_spec_C8 (s : List Int) (k : Nat) (fill : Int)
    (hs : List.Sorted (· ≤ ·) s) :
    (k < len s →
      resize s k fill = s.take k ∧
      len (resize s k fill) = k ∧
      (∀ j, j < k → (resize s k fill).getD j 0 = s.getD j 0) ∧
      List.Sorted (· ≤ ·) (resize s k fill)) ∧
    (len s < k → resize s k fill = s ++ List.replicate (k - len s) fill) := by
  constructor
  · intro hk
    have hk2 : k ≤ s.length := le_of_lt hk
    have heq : resize s k fill = s.take k := by
      unfold resize
      rw [if_pos hk2]
    have hlen : (s.take k).length = k := by
      rw [List.length_take]
      omega
    refine ⟨heq, by rw [heq]; exact hlen, ?_, ?_⟩
    · intro j hj
      rw [heq]
      have hjt : j < (s.take k).length := by omega
      rw [List.getD_eq_getElem _ 0 hjt,
        List.getD_eq_getElem s 0 (show j < s.length by omega)]
      exact List.getElem_take s
    · rw [heq]
      exact List.Pairwise.sublist (List.take_sublist k s) hs
  · intro hk
    have hk2 : s.length < k := hk
    unfold resize
    rw [if_neg (not_le.mpr hk2)]
    exact rfl

/-- C8 witness: `[3,5,7]` truncated to 2 equals its first two elements, and
resized to 5 with fill 9 appends two copies of 9. -/
theorem resize_spec_C8_witness :
    resize [(3 : Int), 5, 7] 2 0 = [(3 : Int), 5, 7].take 2 ∧
    resize [(3 : Int), 5, 7] 5 9 =
      [(3 : Int), 5, 7] ++ List.replicate (5 - len [(3 : Int), 5, 7]) 9 :=
  ⟨((resize_spec_C8 [(3 : Int), 5, 7] 2 0 (by decide)).1 (by decide)).1,
   (resize_spec_C8 [(3 : Int), 5, 7] 5 9 (by decide)).2 (by decide)⟩

/-- C9: starting empty, insert 5 → index 0, insert 3 → index 0,
insert 7 → index 2, and the resulting state is `[3, 5, 7]`. -/
theorem scenario_C9 :
    (insert [] (5 : Int)).2 = 0 ∧
    (insert (insert [] (5 : Int)).1 3).2 = 0 ∧
    (insert (insert (insert [] (5 : Int)).1 3).1 7).2 = 2 ∧
    (insert (insert (insert [] (5 : Int)).1 3).1 7).1 = [3, 5, 7] := by
  decide

/-- C10: on a sorted state already holding an element equal to `v`,
`insert v` leaves the state completely unchanged (same list, same length) and
returns the index of the existing equal element; `insert` never creates a
duplicate. -/
theorem insert_duplicate_C10 (s : List Int) (v : Int)
    (hs : List.Sorted (· ≤ ·) s) (hmem : v ∈ s) :
    (insert s v).1 = s ∧ len (insert s v).1 = len s ∧
    (insert s v).2 < len s ∧ get s (insert s v).2 = some v := by
  rcases hbs : binary_search s v with i | i
  · exact absurd hmem (not_mem_of_binary_search_err hs hbs)
  · obtain ⟨hi, hvi⟩ := binary_search_found hbs
    unfold insert
    rw [hbs]
    refine ⟨rfl, rfl, hi, ?_⟩
    show s.get? i = some v
    rw [List.get?_eq_getElem?, List.getElem?_eq_getElem hi]
    exact congrArg some ((List.getD_eq_getElem s 0 hi).symm.trans hvi)

/-- C10 witness: inserting 5 into `[5]` changes nothing and returns index 0,
which reads back 5. -/
theorem insert_duplicate_C10_witness :
    (insert [(5 : Int)] 5).1 = [(5 : Int)] ∧
    len (insert [(5 : Int)] 5).1 = len [(5 : Int)] ∧
    (insert [(5 : Int)] 5).2 < len [(5 : Int)] ∧
    get [(5 : Int)] (insert [(5 : Int)] 5).2 = some 5 :=
  insert_duplicate_C10 [(5 : Int)] 5 (by decide) (by decide)

end BinaryVec
